import Mathlib

/-!
# Verification of the AliceVision `fuseCut::DelaunayGraphCut` cell-complex model

Shallow embedding of `src/aliceVision/fuseCut/DelaunayGraphCut.hpp`.

The triangulation backend (geogram `GEO::Delaunay`) is out of scope of the
repository and is modelled as an abstract record of query functions
(`nb_cells`, `cell_vertex`, `cell_adjacent`, `cell_is_infinite`), exactly the
queries the header consumes.  `GEO::index_t` is a 32-bit unsigned integer;
`GEO::NO_CELL` and `GEO::NO_VERTEX` are `index_t(-1) = 2^32 - 1`.  Indices are
modelled as `Nat` with those sentinel values.

The inline member functions of `DelaunayGraphCut` (`getVertexIndex`,
`getOppositeVertexIndex`, `mirrorFacet`, `updateVertexToCellsCache`,
`vertexToCells`, `getNeighboringCellsByVertexIndex`, `isInfiniteCell`,
`isInvalidOrInfiniteCell`) are translated from the header body.  Functions
whose bodies live in a translation unit absent from the repository snapshot
(`fillGraph`, `maxflow`, `createMesh`, `removeDust`, ...) are modelled from
the spec; their doc comments say so explicitly.
-/

namespace GEO

/-- `GEO::index_t(-1)`: the sentinel for "no cell" (`index_t` is `uint32`). -/
def NO_CELL : Nat := 4294967295

/-- `GEO::index_t(-1)`: the sentinel for "no vertex". -/
def NO_VERTEX : Nat := 4294967295

end GEO

namespace AliceVision

open GEO

/-- Abstract model of the geogram Delaunay triangulation backend
(`GEO::Delaunay`): the adjacency/vertex queries that
`DelaunayGraphCut` consumes.  `cell_vertex ci k` is the global vertex index
stored in local slot `k` of cell `ci` (already converted to the unsigned
`index_t` domain, so the infinite vertex reads as `NO_VERTEX`);
`cell_adjacent ci k` is the cell sharing the facet opposite local vertex `k`,
or `NO_CELL` at the convex-hull boundary. -/
structure Tetrahedralization where
  nb_cells : Nat
  cell_vertex : Nat → Nat → Nat
  cell_adjacent : Nat → Nat → Nat
  cell_is_infinite : Nat → Bool

/-- `DelaunayGraphCut::Facet`: an oriented triangular face of a cell,
identified by the cell index and the local index (0..3) of the vertex
opposite the face.  Default-constructed as `(NO_CELL, NO_VERTEX)`. -/
structure Facet where
  cellIndex : Nat := NO_CELL
  localVertexIndex : Nat := NO_VERTEX
deriving DecidableEq, Repr

/-- The part of the `DelaunayGraphCut` state the header's inline functions
touch: the backend handle `_tetrahedralization`, the size of
`_verticesCoords` (only the size is read by the cache code), and the derived
vertex-to-incident-cells cache `_neighboringCellsPerVertex`. -/
structure DelaunayGraphCut where
  tetra : Tetrahedralization
  verticesCoordsSize : Nat
  neighboringCellsPerVertex : List (List Nat)

namespace DelaunayGraphCut

/-- `getOppositeVertexIndex`: the global vertex index of the facet's local
opposite vertex, `_tetrahedralization->cell_vertex(f.cellIndex,
f.localVertexIndex)`. -/
def getOppositeVertexIndex (d : DelaunayGraphCut) (f : Facet) : Nat :=
  d.tetra.cell_vertex f.cellIndex f.localVertexIndex

/-- `getVertexIndex`: the global vertex index of the `i`-th vertex on the
facet, `cell_vertex(f.cellIndex, (f.localVertexIndex + i + 1) % 4)`. -/
def getVertexIndex (d : DelaunayGraphCut) (f : Facet) (i : Nat) : Nat :=
  d.tetra.cell_vertex f.cellIndex ((f.localVertexIndex + i + 1) % 4)

/-- `isInfiniteCell`: a cell is infinite iff the backend marks it so. -/
def isInfiniteCell (d : DelaunayGraphCut) (ci : Nat) : Bool :=
  d.tetra.cell_is_infinite ci

/-- `isInvalidOrInfiniteCell ci = (ci == GEO::NO_CELL) || isInfiniteCell ci`. -/
def isInvalidOrInfiniteCell (d : DelaunayGraphCut) (ci : Nat) : Bool :=
  ci == NO_CELL || d.isInfiniteCell ci

/-- The `facetVertices` array built at the start of `mirrorFacet`:
the facet's three global vertex indices. -/
def facetVertices (d : DelaunayGraphCut) (f : Facet) : List Nat :=
  [d.getVertexIndex f 0, d.getVertexIndex f 1, d.getVertexIndex f 2]

/-- `mirrorFacet`: cross the facet to the adjacent cell.
`out.cellIndex = cell_adjacent(f.cellIndex, f.localVertexIndex)`; when that
is not `NO_CELL`, scan `k = 0..3` for the first vertex of the adjacent cell
absent from the input facet's three vertices and use it as the mirror's local
opposite vertex.  If the adjacent cell is `NO_CELL` (or no such vertex is
found), the default-constructed fields survive. -/
def mirrorFacet (d : DelaunayGraphCut) (f : Facet) : Facet :=
  let fv := d.facetVertices f
  let outCell := d.tetra.cell_adjacent f.cellIndex f.localVertexIndex
  if outCell ≠ NO_CELL then
    match (List.range 4).find? (fun k => !(fv.contains (d.tetra.cell_vertex outCell k))) with
    | some k => { cellIndex := outCell, localVertexIndex := k }
    | none => { cellIndex := outCell, localVertexIndex := NO_VERTEX }
  else
    { cellIndex := outCell, localVertexIndex := NO_VERTEX }

/-- Ordered insertion into a `std::set<CellIndex>` modelled as a sorted
duplicate-free list. -/
def setInsert (x : Nat) : List Nat → List Nat
  | [] => [x]
  | y :: ys => if x < y then x :: y :: ys else if x = y then y :: ys else y :: setInsert x ys

/-- One slot visit of the `updateVertexToCellsCache` double loop: read
`vi = cell_vertex(ci, k)`; skip it when `vi == NO_VERTEX` or
`vi >= _verticesCoords.size()`, otherwise insert `ci` into the set
`neighboringCellsPerVertexTmp[vi]` (the map is modelled as a total function
defaulting to the empty set). -/
def cacheVisitSlot (t : Tetrahedralization) (size : Nat) (tmp : Nat → List Nat)
    (ci k : Nat) : Nat → List Nat :=
  if t.cell_vertex ci k = NO_VERTEX ∨ size ≤ t.cell_vertex ci k then tmp
  else fun v => if v = t.cell_vertex ci k then setInsert ci (tmp v) else tmp v

/-- The inner `for (VertexIndex k = 0; k < 4; ++k)` loop of
`updateVertexToCellsCache` for one cell `ci`. -/
def cacheVisitCell (t : Tetrahedralization) (size : Nat) (tmp : Nat → List Nat)
    (ci : Nat) : Nat → List Nat :=
  (List.range 4).foldl (fun acc k => cacheVisitSlot t size acc ci k) tmp

/-- The `neighboringCellsPerVertexTmp` map after the double loop of
`updateVertexToCellsCache` over all cells. -/
def cacheTmp (t : Tetrahedralization) (size : Nat) : Nat → List Nat :=
  (List.range t.nb_cells).foldl (fun acc ci => cacheVisitCell t size acc ci) (fun _ => [])

/-- `updateVertexToCellsCache`: clear the cache, run the double loop filling
the per-vertex cell sets, resize the cache to `_verticesCoords.size()` and
copy each set into its vector slot (entries of vertices never seen stay
empty, matching the `resize` default). -/
def updateVertexToCellsCache (d : DelaunayGraphCut) : DelaunayGraphCut :=
  { d with neighboringCellsPerVertex :=
      (List.range d.verticesCoordsSize).map (cacheTmp d.tetra d.verticesCoordsSize) }

/-- Two's-complement conversion of a C `int` value to `size_t`, as performed
by the comparison `lvi >= localCells.size()` in `vertexToCells`. -/
def intToSizeT (i : Int) : Nat := (i % (2 ^ 64 : Int)).toNat

/-- `vertexToCells(vi, lvi)`: `_neighboringCellsPerVertex.at(vi)` (throws
`std::out_of_range` when `vi` is out of bounds, modelled as `Except.error`),
then return `NO_CELL` when `lvi >= localCells.size()` (an `int`-vs-`size_t`
comparison, so `lvi` is converted to `size_t` first), else the `lvi`-th
cached cell. -/
def vertexToCells (d : DelaunayGraphCut) (vi : Nat) (lvi : Int) : Except String Nat :=
  if h : vi < d.neighboringCellsPerVertex.length then
    let localCells := d.neighboringCellsPerVertex.get ⟨vi, h⟩
    if h2 : localCells.length ≤ intToSizeT lvi then Except.ok NO_CELL
    else Except.ok (localCells.get ⟨intToSizeT lvi, by omega⟩)
  else Except.error "vector::at: out_of_range"

/-- `getNeighboringCellsByVertexIndex(vi) = _neighboringCellsPerVertex.at(vi)`:
`std::vector::at` throws `std::out_of_range` on an out-of-bounds index,
modelled as `Except.error`. -/
def getNeighboringCellsByVertexIndex (d : DelaunayGraphCut) (vi : Nat) :
    Except String (List Nat) :=
  if h : vi < d.neighboringCellsPerVertex.length then
    Except.ok (d.neighboringCellsPerVertex.get ⟨vi, h⟩)
  else Except.error "vector::at: out_of_range"

end DelaunayGraphCut

/-- The state of a freshly constructed `DelaunayGraphCut`: the member
`std::vector<std::vector<CellIndex>> _neighboringCellsPerVertex` is
default-initialized empty, and stays empty until
`updateVertexToCellsCache` runs. -/
def initialDelaunayGraphCut (t : Tetrahedralization) (nVertices : Nat) :
    DelaunayGraphCut :=
  { tetra := t, verticesCoordsSize := nVertices, neighboringCellsPerVertex := [] }

/-- Modelled from the spec: `GC_cellInfo` (defined in
`delaunayGraphCutTypes.hpp`, absent from the snapshot) carries each cell's
accumulated "empty" and "full" visibility weights.  The spec fixes them as
accumulate-only, never-negative quantities; weights are modelled as `ℚ`. -/
structure GC_cellInfo where
  emptyWeight : ℚ
  fullWeight : ℚ

/-- Modelled from the spec: the part of the reconstruction state the voting
pass touches — vertex data (spec: voting "never removes vertices or cells")
and per-cell weights (`_cellsAttr`). -/
structure VoteState where
  vertices : List (ℚ × ℚ × ℚ)
  cells : List GC_cellInfo

/-- Modelled from the spec: add one vote's empty/full deltas onto cell `i`
(weights "only accumulate (no cancellation)"). -/
def bumpCell : List GC_cellInfo → Nat → ℚ → ℚ → List GC_cellInfo
  | [], _, _, _ => []
  | cInfo :: rest, 0, dE, dF =>
      { emptyWeight := cInfo.emptyWeight + dE, fullWeight := cInfo.fullWeight + dF } :: rest
  | cInfo :: rest, n + 1, dE, dF => cInfo :: bumpCell rest n dE dF

/-- Modelled from the spec: one accumulated contribution of a ray walk —
a target cell plus nonnegative empty/full weight deltas (each delta a
`weightFcn`-times-`distFcn` product, nonnegative by the behavioral contract
"zero beyond max distance, smooth decay, peak weight at zero distance"). -/
def applyVote (st : VoteState) (v : Nat × ℚ × ℚ) : VoteState :=
  { st with cells := bumpCell st.cells v.1 v.2.1 v.2.2 }

/-- Modelled from the spec: one voting pass (`fillGraph` /
`fillGraphPartPtRc` / `forceTedgesByGradientIJCV`, whose bodies live in
`DelaunayGraphCut.cpp`, absent from the snapshot): fold a list of votes
onto the state, mutating cell weights only. -/
def fillGraphPass (st : VoteState) (votes : List (Nat × ℚ × ℚ)) : VoteState :=
  votes.foldl applyVote st

/-- Modelled from the spec: any number of voting passes in sequence. -/
def runVotingPasses (st : VoteState) (passes : List (List (Nat × ℚ × ℚ))) : VoteState :=
  passes.foldl fillGraphPass st

/-- All vote deltas of a pass list are nonnegative (spec: weights "only
accumulate", each contribution a nonnegative product). -/
def nonnegPasses (passes : List (List (Nat × ℚ × ℚ))) : Prop :=
  ∀ p ∈ passes, ∀ v ∈ p, 0 ≤ v.2.1 ∧ 0 ≤ v.2.2

/-- Pointwise weight dominance between two cell tables of equal size:
each cell's empty and full weight in the second table is at least its value
in the first. -/
def weightsLE (xs ys : List GC_cellInfo) : Prop :=
  xs.length = ys.length ∧
  ∀ j (hj : j < xs.length) (hj2 : j < ys.length),
    (xs.get ⟨j, hj⟩).emptyWeight ≤ (ys.get ⟨j, hj2⟩).emptyWeight ∧
    (xs.get ⟨j, hj⟩).fullWeight ≤ (ys.get ⟨j, hj2⟩).fullWeight

/-- Modelled from the spec: `maxflow` (body in `DelaunayGraphCut.cpp`,
absent from the snapshot) computes the min-cut and writes `_cellIsFull`:
every cell receives the boolean side of the cut it falls on, with infinite
cells always on the empty (false) side, as the spec invariant states. -/
def maxflow (d : DelaunayGraphCut) (cutIsFull : Nat → Bool) : List Bool :=
  (List.range d.tetra.nb_cells).map (fun ci =>
    if d.tetra.cell_is_infinite ci then false else cutIsFull ci)

/-- A facet references no helper (synthetic camera-center or lattice)
vertex. -/
def facetHelperFree (d : DelaunayGraphCut) (isHelper : Nat → Bool) (f : Facet) : Bool :=
  !(isHelper (d.getVertexIndex f 0)) && !(isHelper (d.getVertexIndex f 1)) &&
    !(isHelper (d.getVertexIndex f 2))

/-- Modelled from the spec: the per-facet emission test of `createMesh`
(body in `DelaunayGraphCut.cpp`, absent from the snapshot).  A facet of a
full cell whose mirror cell exists, is empty, and with both incident cells
finite, emits its 3 vertex indices as a triangle; with
`filterHelperPointsTriangles` set, only when no vertex is a helper point. -/
def emitTriangle (d : DelaunayGraphCut) (labels : Nat → Bool) (isHelper : Nat → Bool)
    (filterHelperPointsTriangles : Bool) (f : Facet) : Option (Nat × Nat × Nat) :=
  if labels f.cellIndex = true ∧ (d.mirrorFacet f).cellIndex ≠ NO_CELL ∧
      labels (d.mirrorFacet f).cellIndex = false ∧
      d.isInfiniteCell f.cellIndex = false ∧
      d.isInfiniteCell (d.mirrorFacet f).cellIndex = false ∧
      (filterHelperPointsTriangles = true → facetHelperFree d isHelper f = true) then
    some (d.getVertexIndex f 0, d.getVertexIndex f 1, d.getVertexIndex f 2)
  else none

/-- Modelled from the spec: `createMesh` scans every facet (cell × local
index) and collects the emitted triangles. -/
def createMesh (d : DelaunayGraphCut) (labels : Nat → Bool) (isHelper : Nat → Bool)
    (filterHelperPointsTriangles : Bool) : List (Nat × Nat × Nat) :=
  ((List.range d.tetra.nb_cells).map (fun ci =>
    (List.range 4).filterMap (fun lvi =>
      emitTriangle d labels isHelper filterHelperPointsTriangles ⟨ci, lvi⟩))).flatten

/-- Two cells are facet-adjacent in the backend: one is the `cell_adjacent`
of the other across some local facet. -/
def cellsAdjacent (t : Tetrahedralization) (a b : Nat) : Bool :=
  (List.range 4).any (fun kk => t.cell_adjacent a kk == b)

/-- Modelled from the spec: one frontier-expansion step of the
`segmentFullOrFree` flood fill — add every labeled cell adjacent to the
current set (crossing only facets whose mirror cell shares the label). -/
def dustExpand (t : Tetrahedralization) (labels : Nat → Bool) (S : Finset Nat) : Finset Nat :=
  S ∪ (Finset.range t.nb_cells).filter
    (fun b => labels b = true ∧ ∃ a ∈ S, cellsAdjacent t a b = true)

/-- Modelled from the spec: the connected component of same-labeled cells
containing `a`, computed by saturating the flood fill (`nb_cells`
expansions always reach the fixed point). -/
def dustComponent (t : Tetrahedralization) (labels : Nat → Bool) (a : Nat) : Finset Nat :=
  (dustExpand t labels)^[t.nb_cells] {a}

/-- Modelled from the spec: `removeDust(minSegSize)` (body in
`DelaunayGraphCut.cpp`, absent from the snapshot): any full connected
component with cell count below `minSegSize` is relabeled empty; empty
cells stay empty. -/
def removeDust (t : Tetrahedralization) (minSegSize : Nat) (labels : Nat → Bool) :
    Nat → Bool :=
  fun ci => labels ci && decide (minSegSize ≤ (dustComponent t labels ci).card)

/-- Vertex table of a concrete two-tetrahedra complex used to instantiate
theorems: cell 0 has vertices (0,1,2,3), cell 1 has vertices (4,1,2,3);
they share the facet {1,2,3}. -/
def sampleCellVertex : Nat → Nat → Nat
  | 0, 0 => 0
  | 0, 1 => 1
  | 0, 2 => 2
  | 0, 3 => 3
  | 1, 0 => 4
  | 1, 1 => 1
  | 1, 2 => 2
  | 1, 3 => 3
  | _, _ => GEO.NO_VERTEX

/-- Adjacency of the two-tetrahedra complex: the facet of cell 0 opposite
local vertex 0 borders cell 1 and vice versa; every other facet is on the
hull. -/
def sampleCellAdjacent : Nat → Nat → Nat
  | 0, 0 => 1
  | 1, 0 => 0
  | _, _ => GEO.NO_CELL

/-- The concrete two-tetrahedra backend. -/
def sampleTetra : Tetrahedralization :=
  { nb_cells := 2
    cell_vertex := sampleCellVertex
    cell_adjacent := sampleCellAdjacent
    cell_is_infinite := fun _ => false }

/-- A variant of the two-tetrahedra backend where cell 1 is infinite. -/
def sampleTetraInf : Tetrahedralization :=
  { sampleTetra with cell_is_infinite := fun ci => ci == 1 }

/-- The two-tetrahedra `DelaunayGraphCut` with its vertex-to-cells cache
built. -/
def sampleDGC : DelaunayGraphCut :=
  DelaunayGraphCut.updateVertexToCellsCache (initialDelaunayGraphCut sampleTetra 5)

/-- Membership in a `setInsert` result: the inserted element or an old one. -/
lemma mem_setInsert : ∀ {l : List Nat} {x a : Nat},
    x ∈ DelaunayGraphCut.setInsert a l ↔ x = a ∨ x ∈ l
  | [], x, a => by simp [DelaunayGraphCut.setInsert]
  | y :: ys, x, a => by
    by_cases h1 : a < y
    · simp only [DelaunayGraphCut.setInsert, if_pos h1, List.mem_cons]
    · by_cases h2 : a = y
      · subst h2
        have hrw : DelaunayGraphCut.setInsert a (a :: ys) = a :: ys := by
          unfold DelaunayGraphCut.setInsert
          rw [if_neg h1, if_pos rfl]
        rw [hrw, List.mem_cons]
        tauto
      · simp only [DelaunayGraphCut.setInsert, if_neg h1, if_neg h2, List.mem_cons,
          mem_setInsert (l := ys)]
        tauto

/-- `setInsert` keeps the set strictly sorted (`std::set` ordering). -/
lemma sorted_setInsert : ∀ {l : List Nat}, l.Sorted (· < ·) →
    ∀ a, (DelaunayGraphCut.setInsert a l).Sorted (· < ·)
  | [], _, a => by simp [DelaunayGraphCut.setInsert]
  | y :: ys, h, a => by
    rw [List.sorted_cons] at h
    obtain ⟨hy, hys⟩ := h
    by_cases h1 : a < y
    · simp only [DelaunayGraphCut.setInsert, if_pos h1]
      rw [List.sorted_cons]
      refine ⟨?_, ?_⟩
      · intro b hb
        rcases List.mem_cons.mp hb with rfl | hb
        · exact h1
        · exact h1.trans (hy b hb)
      · rw [List.sorted_cons]
        exact ⟨hy, hys⟩
    · by_cases h2 : a = y
      · subst h2
        have hrw : DelaunayGraphCut.setInsert a (a :: ys) = a :: ys := by
          unfold DelaunayGraphCut.setInsert
          rw [if_neg h1, if_pos rfl]
        rw [hrw, List.sorted_cons]
        exact ⟨hy, hys⟩
      · simp only [DelaunayGraphCut.setInsert, if_neg h1, if_neg h2]
        rw [List.sorted_cons]
        refine ⟨?_, sorted_setInsert hys a⟩
        intro b hb
        rcases mem_setInsert.mp hb with rfl | hb
        · omega
        · exact hy b hb

/-- Membership after one slot visit of the cache double loop. -/
lemma mem_cacheVisitSlot {t : Tetrahedralization} {size : Nat} {tmp : Nat → List Nat}
    {ci k x v : Nat} :
    x ∈ (DelaunayGraphCut.cacheVisitSlot t size tmp ci k) v ↔
      x ∈ tmp v ∨
        (x = ci ∧ t.cell_vertex ci k = v ∧ ¬(v = NO_VERTEX ∨ size ≤ v)) := by
  unfold DelaunayGraphCut.cacheVisitSlot
  by_cases hc : t.cell_vertex ci k = NO_VERTEX ∨ size ≤ t.cell_vertex ci k
  · rw [if_pos hc]
    constructor
    · exact Or.inl
    · rintro (hx | ⟨rfl, rfl, hno⟩)
      · exact hx
      · exact absurd hc hno
  · rw [if_neg hc]
    by_cases hv : v = t.cell_vertex ci k
    · subst hv
      rw [if_pos rfl, mem_setInsert]
      constructor
      · rintro (rfl | hx)
        · exact Or.inr ⟨rfl, rfl, hc⟩
        · exact Or.inl hx
      · rintro (hx | ⟨rfl, -, -⟩)
        · exact Or.inr hx
        · exact Or.inl rfl
    · rw [if_neg hv]
      constructor
      · exact Or.inl
      · rintro (hx | ⟨rfl, hcv, -⟩)
        · exact hx
        · exact absurd hcv.symm hv

/-- Membership after the 4-slot inner loop for one cell. -/
lemma mem_cacheVisitCell {t : Tetrahedralization} {size : Nat} {tmp : Nat → List Nat}
    {ci x v : Nat} :
    x ∈ (DelaunayGraphCut.cacheVisitCell t size tmp ci) v ↔
      x ∈ tmp v ∨
        (x = ci ∧ ¬(v = NO_VERTEX ∨ size ≤ v) ∧ ∃ k, k < 4 ∧ t.cell_vertex ci k = v) := by
  have hrange : List.range 4 = [0, 1, 2, 3] := rfl
  rw [DelaunayGraphCut.cacheVisitCell, hrange]
  simp only [List.foldl_cons, List.foldl_nil]
  rw [mem_cacheVisitSlot, mem_cacheVisitSlot, mem_cacheVisitSlot, mem_cacheVisitSlot]
  constructor
  · rintro ((((hx | ⟨rfl, hk, hno⟩) | ⟨rfl, hk, hno⟩) | ⟨rfl, hk, hno⟩) | ⟨rfl, hk, hno⟩)
    · exact Or.inl hx
    · exact Or.inr ⟨rfl, hno, 0, by omega, hk⟩
    · exact Or.inr ⟨rfl, hno, 1, by omega, hk⟩
    · exact Or.inr ⟨rfl, hno, 2, by omega, hk⟩
    · exact Or.inr ⟨rfl, hno, 3, by omega, hk⟩
  · rintro (hx | ⟨rfl, hno, k, hk4, hkv⟩)
    · exact Or.inl (Or.inl (Or.inl (Or.inl hx)))
    · interval_cases k
      · exact Or.inl (Or.inl (Or.inl (Or.inr ⟨rfl, hkv, hno⟩)))
      · exact Or.inl (Or.inl (Or.inr ⟨rfl, hkv, hno⟩))
      · exact Or.inl (Or.inr ⟨rfl, hkv, hno⟩)
      · exact Or.inr ⟨rfl, hkv, hno⟩

/-- Membership after folding the per-cell visits over any cell list. -/
lemma mem_foldl_cacheVisitCell {t : Tetrahedralization} {size : Nat} :
    ∀ (cis : List Nat) (tmp : Nat → List Nat) (x v : Nat),
    x ∈ (cis.foldl (fun acc ci => DelaunayGraphCut.cacheVisitCell t size acc ci) tmp) v ↔
      x ∈ tmp v ∨
        (x ∈ cis ∧ ¬(v = NO_VERTEX ∨ size ≤ v) ∧ ∃ k, k < 4 ∧ t.cell_vertex x k = v)
  | [], tmp, x, v => by simp
  | ci :: cis, tmp, x, v => by
    rw [List.foldl_cons, mem_foldl_cacheVisitCell cis, mem_cacheVisitCell]
    constructor
    · rintro ((hx | ⟨rfl, hno, hk⟩) | ⟨hmem, hno, hk⟩)
      · exact Or.inl hx
      · exact Or.inr ⟨List.mem_cons_self _ _, hno, hk⟩
      · exact Or.inr ⟨List.mem_cons_of_mem _ hmem, hno, hk⟩
    · rintro (hx | ⟨hmem, hno, hk⟩)
      · exact Or.inl (Or.inl hx)
      · rcases List.mem_cons.mp hmem with rfl | hmem
        · exact Or.inl (Or.inr ⟨rfl, hno, hk⟩)
        · exact Or.inr ⟨hmem, hno, hk⟩

/-- The per-vertex set built by the cache double loop contains exactly the
cells whose 4 vertex slots include the vertex. -/
lemma mem_cacheTmp {t : Tetrahedralization} {size x v : Nat} :
    x ∈ DelaunayGraphCut.cacheTmp t size v ↔
      x < t.nb_cells ∧ ¬(v = NO_VERTEX ∨ size ≤ v) ∧ ∃ k, k < 4 ∧ t.cell_vertex x k = v := by
  rw [DelaunayGraphCut.cacheTmp, mem_foldl_cacheVisitCell]
  simp [List.mem_range]

/-- Slot visits keep every per-vertex set strictly sorted. -/
lemma sorted_cacheVisitSlot {t : Tetrahedralization} {size : Nat} {tmp : Nat → List Nat}
    {ci k : Nat} (h : ∀ v, (tmp v).Sorted (· < ·)) :
    ∀ v, ((DelaunayGraphCut.cacheVisitSlot t size tmp ci k) v).Sorted (· < ·) := by
  intro v
  unfold DelaunayGraphCut.cacheVisitSlot
  split
  · exact h v
  · dsimp only
    by_cases hv : v = t.cell_vertex ci k
    · rw [if_pos hv]
      exact sorted_setInsert (h v) ci
    · rw [if_neg hv]
      exact h v

/-- The inner loop keeps every per-vertex set strictly sorted. -/
lemma sorted_cacheVisitCell {t : Tetrahedralization} {size : Nat} {tmp : Nat → List Nat}
    {ci : Nat} (h : ∀ v, (tmp v).Sorted (· < ·)) :
    ∀ v, ((DelaunayGraphCut.cacheVisitCell t size tmp ci) v).Sorted (· < ·) := by
  have hrange : List.range 4 = [0, 1, 2, 3] := rfl
  rw [DelaunayGraphCut.cacheVisitCell, hrange]
  simp only [List.foldl_cons, List.foldl_nil]
  exact sorted_cacheVisitSlot (sorted_cacheVisitSlot (sorted_cacheVisitSlot
    (sorted_cacheVisitSlot h)))

/-- The full double loop keeps every per-vertex set strictly sorted. -/
lemma sorted_foldl_cacheVisitCell {t : Tetrahedralization} {size : Nat} :
    ∀ (cis : List Nat) (tmp : Nat → List Nat),
      (∀ v, (tmp v).Sorted (· < ·)) →
      ∀ v, ((cis.foldl (fun acc ci => DelaunayGraphCut.cacheVisitCell t size acc ci) tmp) v).Sorted
        (· < ·)
  | [], tmp, h, v => h v
  | ci :: cis, tmp, h, v => by
    rw [List.foldl_cons]
    exact sorted_foldl_cacheVisitCell cis _ (sorted_cacheVisitCell h) v

/-- The built per-vertex cell sets are strictly sorted (hence
duplicate-free). -/
lemma sorted_cacheTmp {t : Tetrahedralization} {size : Nat} :
    ∀ v, (DelaunayGraphCut.cacheTmp t size v).Sorted (· < ·) := by
  intro v
  rw [DelaunayGraphCut.cacheTmp]
  exact sorted_foldl_cacheVisitCell _ _ (fun _ => List.sorted_nil) v

/-- `x ∉ l` when the `std::find`-style scan reports absence. -/
lemma not_mem_of_bnot_contains {l : List Nat} {x : Nat} (h : (!(l.contains x)) = true) :
    x ∉ l := by
  simp only [Bool.not_eq_true'] at h
  intro hx
  have hc : l.contains x = true := List.elem_iff.mpr hx
  rw [hc] at h
  cases h

/-- The `std::find`-style scan reports absence for `x ∉ l`. -/
lemma bnot_contains_of_not_mem {l : List Nat} {x : Nat} (h : x ∉ l) :
    (!(l.contains x)) = true := by
  simp only [Bool.not_eq_true']
  rcases hb : l.contains x with _ | _
  · rfl
  · exact absurd (List.elem_iff.mp hb) h

/-- The `std::find`-style scan reports presence for `x ∈ l`. -/
lemma bnot_contains_of_mem {l : List Nat} {x : Nat} (h : x ∈ l) :
    (!(l.contains x)) = false := by
  have hc : l.contains x = true := List.elem_iff.mpr h
  rw [hc]
  rfl

/-- `List.find?` over slots 0..3 lands on `k` when `k` is the unique slot
satisfying the predicate. -/
lemma find4_unique (p : Nat → Bool) {k : Nat} (hk4 : k < 4) (hpk : p k = true)
    (hother : ∀ j, j < 4 → j ≠ k → p j = false) :
    (List.range 4).find? p = some k := by
  have hr : List.range 4 = [0, 1, 2, 3] := rfl
  rw [hr]
  interval_cases k
  · rw [List.find?_cons_of_pos _ hpk]
  · rw [List.find?_cons_of_neg _ (by simp [hother 0 (by omega) (by omega)]),
      List.find?_cons_of_pos _ hpk]
  · rw [List.find?_cons_of_neg _ (by simp [hother 0 (by omega) (by omega)]),
      List.find?_cons_of_neg _ (by simp [hother 1 (by omega) (by omega)]),
      List.find?_cons_of_pos _ hpk]
  · rw [List.find?_cons_of_neg _ (by simp [hother 0 (by omega) (by omega)]),
      List.find?_cons_of_neg _ (by simp [hother 1 (by omega) (by omega)]),
      List.find?_cons_of_neg _ (by simp [hother 2 (by omega) (by omega)]),
      List.find?_cons_of_pos _ hpk]

/-- `mirrorFacet` unfolded at an explicit facet, with its `let`s expanded. -/
lemma mirrorFacet_unfold (d : DelaunayGraphCut) (c lv : Nat) :
    d.mirrorFacet ⟨c, lv⟩ =
      if d.tetra.cell_adjacent c lv ≠ NO_CELL then
        match (List.range 4).find? (fun k =>
            !((d.facetVertices ⟨c, lv⟩).contains
              (d.tetra.cell_vertex (d.tetra.cell_adjacent c lv) k))) with
        | some k => { cellIndex := d.tetra.cell_adjacent c lv, localVertexIndex := k }
        | none => { cellIndex := d.tetra.cell_adjacent c lv, localVertexIndex := NO_VERTEX }
      else { cellIndex := d.tetra.cell_adjacent c lv, localVertexIndex := NO_VERTEX } := rfl

/-- Rotating the last element of a list to the front is a permutation. -/
lemma perm_snoc_cons {α : Type} (a : α) (l : List α) : (l ++ [a]).Perm (a :: l) :=
  @List.perm_append_comm α l [a]

/-- C5: the three local slots `(f.localVertexIndex + i + 1) % 4` read by
`getVertexIndex` for `i ∈ {0,1,2}`, together with `f.localVertexIndex`
itself read by `getOppositeVertexIndex`, cover each of the cell's 4 local
vertex slots exactly once: the four reads are a permutation of the reads of
slots 0..3, for every backend vertex table.  Hence the facet's 3 vertices
are exactly the cell's vertices other than the opposite vertex. -/
theorem facetSlots_cover_all_four (d : DelaunayGraphCut) (f : Facet)
    (h : f.localVertexIndex < 4) :
    List.Perm
      [d.getVertexIndex f 0, d.getVertexIndex f 1, d.getVertexIndex f 2,
        d.getOppositeVertexIndex f]
      ((List.range 4).map (d.tetra.cell_vertex f.cellIndex)) := by
  obtain ⟨c, lv⟩ := f
  simp only [DelaunayGraphCut.getVertexIndex, DelaunayGraphCut.getOppositeVertexIndex]
  interval_cases lv
  · exact perm_snoc_cons (d.tetra.cell_vertex c 0)
      [d.tetra.cell_vertex c 1, d.tetra.cell_vertex c 2, d.tetra.cell_vertex c 3]
  · exact @List.perm_append_comm Nat
      [d.tetra.cell_vertex c 2, d.tetra.cell_vertex c 3]
      [d.tetra.cell_vertex c 0, d.tetra.cell_vertex c 1]
  · exact @List.perm_append_comm Nat
      [d.tetra.cell_vertex c 3]
      [d.tetra.cell_vertex c 0, d.tetra.cell_vertex c 1, d.tetra.cell_vertex c 2]
  · exact List.Perm.refl _

/-- Witness for C5 at the concrete two-tetrahedra complex, facet (0, 2). -/
theorem facetSlots_cover_all_four_witness :
    (Facet.mk 0 2).localVertexIndex < 4 ∧
      List.Perm
        [sampleDGC.getVertexIndex ⟨0, 2⟩ 0, sampleDGC.getVertexIndex ⟨0, 2⟩ 1,
          sampleDGC.getVertexIndex ⟨0, 2⟩ 2, sampleDGC.getOppositeVertexIndex ⟨0, 2⟩]
        ((List.range 4).map (sampleDGC.tetra.cell_vertex 0)) :=
  ⟨by decide, facetSlots_cover_all_four sampleDGC ⟨0, 2⟩ (by decide)⟩

/-- C4: `getNeighboringCellsByVertexIndex` fails loudly.  Before the cache
has ever been built (the freshly constructed state) every query throws
`std::out_of_range`; and on a built cache, any vertex index at or beyond
`_verticesCoords.size()` (the length of the built index) throws too —
never a silent empty result. -/
theorem getNeighboringCells_failsLoudly :
    (∀ (t : Tetrahedralization) (n vi : Nat),
      (initialDelaunayGraphCut t n).getNeighboringCellsByVertexIndex vi =
        Except.error "vector::at: out_of_range") ∧
    (∀ (d : DelaunayGraphCut) (vi : Nat), d.verticesCoordsSize ≤ vi →
      (d.updateVertexToCellsCache).getNeighboringCellsByVertexIndex vi =
        Except.error "vector::at: out_of_range") := by
  constructor
  · intro t n vi
    simp [initialDelaunayGraphCut, DelaunayGraphCut.getNeighboringCellsByVertexIndex]
  · intro d vi hvi
    rw [DelaunayGraphCut.getNeighboringCellsByVertexIndex, dif_neg]
    simp [DelaunayGraphCut.updateVertexToCellsCache]
    omega

/-- Witness for C4: an unbuilt query at vertex 3 and an out-of-bounds query
at vertex 7 of the built two-tetrahedra complex both throw. -/
theorem getNeighboringCells_failsLoudly_witness :
    (initialDelaunayGraphCut sampleTetra 5).getNeighboringCellsByVertexIndex 3 =
      Except.error "vector::at: out_of_range" ∧
    (initialDelaunayGraphCut sampleTetra 5).updateVertexToCellsCache.getNeighboringCellsByVertexIndex
        7 = Except.error "vector::at: out_of_range" :=
  ⟨getNeighboringCells_failsLoudly.1 sampleTetra 5 3,
    getNeighboringCells_failsLoudly.2 (initialDelaunayGraphCut sampleTetra 5) 7 (by decide)⟩

/-- C2: after `updateVertexToCellsCache` runs, for every vertex index `vi`
valid in `_verticesCoords` (sizes stay below the 32-bit `NO_VERTEX`
sentinel), the cached list `_neighboringCellsPerVertex[vi]` contains exactly
the cells whose 4 vertex slots include `vi`, each exactly once: membership
is equivalent to containing `vi` in some slot, and the list has no
duplicates. -/
theorem updateVertexToCellsCache_spec (d : DelaunayGraphCut)
    (hsize : d.verticesCoordsSize ≤ NO_VERTEX) (vi : Nat)
    (hvi : vi < d.verticesCoordsSize) :
    ∃ hlen : vi < d.updateVertexToCellsCache.neighboringCellsPerVertex.length,
      (∀ ci, ci ∈ d.updateVertexToCellsCache.neighboringCellsPerVertex.get ⟨vi, hlen⟩ ↔
        ci < d.tetra.nb_cells ∧ ∃ k, k < 4 ∧ d.tetra.cell_vertex ci k = vi) ∧
      (d.updateVertexToCellsCache.neighboringCellsPerVertex.get ⟨vi, hlen⟩).Nodup := by
  have hlen : vi < d.updateVertexToCellsCache.neighboringCellsPerVertex.length := by
    simpa [DelaunayGraphCut.updateVertexToCellsCache] using hvi
  have hget : d.updateVertexToCellsCache.neighboringCellsPerVertex.get ⟨vi, hlen⟩ =
      DelaunayGraphCut.cacheTmp d.tetra d.verticesCoordsSize vi := by
    simp [DelaunayGraphCut.updateVertexToCellsCache]
  have hno : ¬(vi = NO_VERTEX ∨ d.verticesCoordsSize ≤ vi) := by
    push_neg
    exact ⟨Nat.ne_of_lt (Nat.lt_of_lt_of_le hvi hsize), hvi⟩
  refine ⟨hlen, ?_, ?_⟩
  · intro ci
    rw [hget, mem_cacheTmp]
    constructor
    · rintro ⟨hci, -, hk⟩
      exact ⟨hci, hk⟩
    · rintro ⟨hci, hk⟩
      exact ⟨hci, hno, hk⟩
  · rw [hget]
    exact (sorted_cacheTmp vi).nodup

/-- Witness for C2 at the built two-tetrahedra complex, vertex 1 (contained
in both cells). -/
theorem updateVertexToCellsCache_spec_witness :
    (initialDelaunayGraphCut sampleTetra 5).verticesCoordsSize ≤ NO_VERTEX ∧
      1 < (initialDelaunayGraphCut sampleTetra 5).verticesCoordsSize ∧
      ∃ hlen : 1 <
          (initialDelaunayGraphCut sampleTetra
            5).updateVertexToCellsCache.neighboringCellsPerVertex.length,
        (∀ ci, ci ∈ (initialDelaunayGraphCut sampleTetra
              5).updateVertexToCellsCache.neighboringCellsPerVertex.get ⟨1, hlen⟩ ↔
          ci < sampleTetra.nb_cells ∧ ∃ k, k < 4 ∧ sampleTetra.cell_vertex ci k = 1) ∧
        ((initialDelaunayGraphCut sampleTetra
            5).updateVertexToCellsCache.neighboringCellsPerVertex.get ⟨1, hlen⟩).Nodup :=
  ⟨by decide, by decide,
    updateVertexToCellsCache_spec (initialDelaunayGraphCut sampleTetra 5) (by decide) 1
      (by decide)⟩

/-- C10: for a vertex `vi` present in the built index, `vertexToCells`
never throws on a bad list position `lvi`: whenever the `size_t` conversion
of `lvi` is at or beyond the neighboring-cell list's size — in particular
for every negative `lvi` in `int` range (unsigned wrap-around) whenever the
list is of any realistic size — it returns `GEO::NO_CELL`; otherwise it
returns the `lvi`-th cached neighboring cell. -/
theorem vertexToCells_spec (d : DelaunayGraphCut) (vi : Nat)
    (h : vi < d.neighboringCellsPerVertex.length) (lvi : Int) :
    ((d.neighboringCellsPerVertex.get ⟨vi, h⟩).length ≤ DelaunayGraphCut.intToSizeT lvi →
      d.vertexToCells vi lvi = Except.ok NO_CELL) ∧
    (∀ h2 : DelaunayGraphCut.intToSizeT lvi <
        (d.neighboringCellsPerVertex.get ⟨vi, h⟩).length,
      d.vertexToCells vi lvi =
        Except.ok ((d.neighboringCellsPerVertex.get ⟨vi, h⟩).get
          ⟨DelaunayGraphCut.intToSizeT lvi, h2⟩)) ∧
    (lvi < 0 → -2147483648 ≤ lvi →
      (d.neighboringCellsPerVertex.get ⟨vi, h⟩).length < 4294967295 →
      d.vertexToCells vi lvi = Except.ok NO_CELL) := by
  refine ⟨?_, ?_, ?_⟩
  · intro hle
    rw [DelaunayGraphCut.vertexToCells, dif_pos h, dif_pos hle]
  · intro h2
    rw [DelaunayGraphCut.vertexToCells, dif_pos h, dif_neg (by omega)]
  · intro hneg hrange hlen
    rw [DelaunayGraphCut.vertexToCells, dif_pos h, dif_pos ?_]
    have : DelaunayGraphCut.intToSizeT lvi = ((2 : Int) ^ 64 + lvi).toNat := by
      unfold DelaunayGraphCut.intToSizeT
      omega
    omega

/-- Witness for C10 at the built two-tetrahedra complex: vertex 1 lies in
cells 0 and 1; position 0 returns cell 0 and the negative position -1 wraps
around and returns `NO_CELL`. -/
theorem vertexToCells_spec_witness :
    1 < sampleDGC.neighboringCellsPerVertex.length ∧
      sampleDGC.vertexToCells 1 0 = Except.ok 0 ∧
      sampleDGC.vertexToCells 1 (-1) = Except.ok NO_CELL := by
  have h : 1 < sampleDGC.neighboringCellsPerVertex.length := by decide
  have hlen2 : (sampleDGC.neighboringCellsPerVertex.get ⟨1, h⟩).length = 2 := rfl
  have h2 : DelaunayGraphCut.intToSizeT 0 <
      (sampleDGC.neighboringCellsPerVertex.get ⟨1, h⟩).length := by
    rw [hlen2]; decide
  refine ⟨h, ?_, ?_⟩
  · rw [(vertexToCells_spec sampleDGC 1 h 0).2.1 h2]
    rfl
  · exact (vertexToCells_spec sampleDGC 1 h (-1)).2.2 (by decide) (by decide)
      (by rw [hlen2]; decide)

/-- C3: `mirrorFacet` at the triangulation boundary (no adjacent cell)
returns the none value, a facet whose cell index is `NO_CELL`; and when the
adjacent cell exists, it returns the facet on the adjacent cell whose local
opposite vertex is the one vertex among that cell's 4 vertices absent from
the input facet's 3 vertices (the absent slot, unique by hypothesis). -/
theorem mirrorFacet_finds_absent_vertex (d : DelaunayGraphCut) (f : Facet) :
    (d.tetra.cell_adjacent f.cellIndex f.localVertexIndex = NO_CELL →
      d.mirrorFacet f = { cellIndex := NO_CELL, localVertexIndex := NO_VERTEX }) ∧
    (∀ k, k < 4 →
      d.tetra.cell_adjacent f.cellIndex f.localVertexIndex ≠ NO_CELL →
      d.tetra.cell_vertex (d.tetra.cell_adjacent f.cellIndex f.localVertexIndex) k ∉
        d.facetVertices f →
      (∀ j, j < 4 → j ≠ k →
        d.tetra.cell_vertex (d.tetra.cell_adjacent f.cellIndex f.localVertexIndex) j ∈
          d.facetVertices f) →
      d.mirrorFacet f =
        { cellIndex := d.tetra.cell_adjacent f.cellIndex f.localVertexIndex,
          localVertexIndex := k }) := by
  obtain ⟨c, lv⟩ := f
  constructor
  · intro h
    rw [mirrorFacet_unfold, if_neg (not_not_intro h), h]
  · intro k hk4 hne hnot hmem
    rw [mirrorFacet_unfold, if_pos hne,
      find4_unique (fun kk =>
          !((d.facetVertices ⟨c, lv⟩).contains
            (d.tetra.cell_vertex (d.tetra.cell_adjacent c lv) kk)))
        hk4 (bnot_contains_of_not_mem hnot)
        (fun j hj4 hjk => bnot_contains_of_mem (hmem j hj4 hjk))]

/-- Witness for C3 at the two-tetrahedra complex: crossing the shared facet
from cell 0 (facet opposite local vertex 0) lands on cell 1's facet opposite
its local vertex 0 (global vertex 4, the one not shared). -/
theorem mirrorFacet_finds_absent_vertex_witness :
    sampleDGC.tetra.cell_adjacent 0 0 ≠ NO_CELL ∧
      sampleDGC.tetra.cell_vertex (sampleDGC.tetra.cell_adjacent 0 0) 0 ∉
        sampleDGC.facetVertices ⟨0, 0⟩ ∧
      sampleDGC.mirrorFacet ⟨0, 0⟩ = { cellIndex := 1, localVertexIndex := 0 } := by
  refine ⟨by decide, by decide, ?_⟩
  exact (mirrorFacet_finds_absent_vertex sampleDGC ⟨0, 0⟩).2 0 (by decide) (by decide)
    (by decide) (by decide)

/-- C1: `mirrorFacet` is an involution on defined mirrors.  For a facet `f`
with a valid local index and cell, whose mirror `m` is defined (its cell
index is not `NO_CELL` and its local vertex index was found), applying
`mirrorFacet` to `m` returns `f` — given the backend invariants
instantiated at the two cells involved: each has 4 pairwise-distinct vertex
references, the adjacent cell contains every vertex of the shared facet,
and `cell_adjacent` is symmetric (crossing back through the slot of the
vertex not on the shared facet returns to `f`'s cell). -/
theorem mirrorFacet_involution (d : DelaunayGraphCut) (f : Facet)
    (hlv : f.localVertexIndex < 4)
    (hcell : f.cellIndex ≠ NO_CELL)
    (hm : (d.mirrorFacet f).cellIndex ≠ NO_CELL ∧
      (d.mirrorFacet f).localVertexIndex ≠ NO_VERTEX)
    (hdistf : ∀ i, i < 4 → ∀ j, j < 4 → i ≠ j →
      d.tetra.cell_vertex f.cellIndex i ≠ d.tetra.cell_vertex f.cellIndex j)
    (hdistm : ∀ i, i < 4 → ∀ j, j < 4 → i ≠ j →
      d.tetra.cell_vertex (d.mirrorFacet f).cellIndex i ≠
        d.tetra.cell_vertex (d.mirrorFacet f).cellIndex j)
    (hshared : ∀ i, i < 4 → i ≠ f.localVertexIndex →
      ∃ j, j < 4 ∧ d.tetra.cell_vertex (d.mirrorFacet f).cellIndex j =
        d.tetra.cell_vertex f.cellIndex i)
    (hsym : ∀ j, j < 4 →
      d.tetra.cell_vertex (d.mirrorFacet f).cellIndex j ∉ d.facetVertices f →
      d.tetra.cell_adjacent (d.mirrorFacet f).cellIndex j = f.cellIndex) :
    d.mirrorFacet (d.mirrorFacet f) = f := by
  obtain ⟨c, lv⟩ := f
  have hlv4 : lv < 4 := hlv
  have hcellc : c ≠ NO_CELL := hcell
  have hdistc : ∀ i, i < 4 → ∀ j, j < 4 → i ≠ j →
      d.tetra.cell_vertex c i ≠ d.tetra.cell_vertex c j := hdistf
  by_cases hAne : d.tetra.cell_adjacent c lv = NO_CELL
  · exfalso
    apply hm.1
    rw [mirrorFacet_unfold, if_neg (not_not_intro hAne)]
    exact hAne
  · cases hfind : (List.range 4).find? (fun kk =>
        !((d.facetVertices ⟨c, lv⟩).contains
          (d.tetra.cell_vertex (d.tetra.cell_adjacent c lv) kk))) with
    | none =>
      exfalso
      apply hm.2
      rw [mirrorFacet_unfold, if_pos hAne, hfind]
    | some k =>
      have hmf : d.mirrorFacet ⟨c, lv⟩ = ⟨d.tetra.cell_adjacent c lv, k⟩ := by
        rw [mirrorFacet_unfold, if_pos hAne, hfind]
      have hk4 : k < 4 := List.mem_range.mp (List.mem_of_find?_eq_some hfind)
      have hpk := List.find?_some hfind
      have hVAk : d.tetra.cell_vertex (d.tetra.cell_adjacent c lv) k ∉
          d.facetVertices ⟨c, lv⟩ :=
        not_mem_of_bnot_contains hpk
      have hdistA : ∀ i, i < 4 → ∀ j, j < 4 → i ≠ j →
          d.tetra.cell_vertex (d.tetra.cell_adjacent c lv) i ≠
            d.tetra.cell_vertex (d.tetra.cell_adjacent c lv) j := by
        have h := hdistm
        rw [hmf] at h
        exact h
      have hsharedA : ∀ i, i < 4 → i ≠ lv →
          ∃ j, j < 4 ∧ d.tetra.cell_vertex (d.tetra.cell_adjacent c lv) j =
            d.tetra.cell_vertex c i := by
        have h := hshared
        rw [hmf] at h
        exact h
      have hsymA : ∀ j, j < 4 →
          d.tetra.cell_vertex (d.tetra.cell_adjacent c lv) j ∉ d.facetVertices ⟨c, lv⟩ →
          d.tetra.cell_adjacent (d.tetra.cell_adjacent c lv) j = c := by
        have h := hsym
        rw [hmf] at h
        exact h
      -- every slot of c other than lv lies on f's facet vertex list
      have hmemslotF : ∀ j, j < 4 → j ≠ lv →
          d.tetra.cell_vertex c j ∈ d.facetVertices ⟨c, lv⟩ := by
        intro j hj4 hjlv
        have h3 : j = (lv + 0 + 1) % 4 ∨ j = (lv + 1 + 1) % 4 ∨ j = (lv + 2 + 1) % 4 := by
          omega
        rcases h3 with rfl | rfl | rfl
        · exact List.mem_cons_self _ _
        · exact List.mem_cons_of_mem _ (List.mem_cons_self _ _)
        · exact List.mem_cons_of_mem _ (List.mem_cons_of_mem _ (List.mem_cons_self _ _))
      -- every slot of the adjacent cell other than k lies on m's facet list
      have hmem3 : ∀ j, j < 4 → j ≠ k →
          d.tetra.cell_vertex (d.tetra.cell_adjacent c lv) j ∈
            d.facetVertices ⟨d.tetra.cell_adjacent c lv, k⟩ := by
        intro j hj4 hjk
        have h3 : j = (k + 0 + 1) % 4 ∨ j = (k + 1 + 1) % 4 ∨ j = (k + 2 + 1) % 4 := by
          omega
        rcases h3 with rfl | rfl | rfl
        · exact List.mem_cons_self _ _
        · exact List.mem_cons_of_mem _ (List.mem_cons_self _ _)
        · exact List.mem_cons_of_mem _ (List.mem_cons_of_mem _ (List.mem_cons_self _ _))
      -- every facet vertex of f appears on m's facet vertex list
      have hFsub : ∀ j, j < 4 → j ≠ lv →
          d.tetra.cell_vertex c j ∈ d.facetVertices ⟨d.tetra.cell_adjacent c lv, k⟩ := by
        intro j hj4 hjlv
        obtain ⟨j2, hj24, hj2x⟩ := hsharedA j hj4 hjlv
        have hj2k : j2 ≠ k := by
          rintro rfl
          apply hVAk
          rw [hj2x]
          exact hmemslotF j hj4 hjlv
        rw [← hj2x]
        exact hmem3 j2 hj24 hj2k
      -- the opposite vertex of f is not on m's facet vertex list
      have hopp : d.tetra.cell_vertex c lv ∉
          d.facetVertices ⟨d.tetra.cell_adjacent c lv, k⟩ := by
        intro hbad
        have ha0 := hFsub ((lv + 0 + 1) % 4) (Nat.mod_lt _ (by omega)) (by omega)
        have ha1 := hFsub ((lv + 1 + 1) % 4) (Nat.mod_lt _ (by omega)) (by omega)
        have ha2 := hFsub ((lv + 2 + 1) % 4) (Nat.mod_lt _ (by omega)) (by omega)
        have hnodup : ([d.tetra.cell_vertex c lv,
            d.tetra.cell_vertex c ((lv + 0 + 1) % 4),
            d.tetra.cell_vertex c ((lv + 1 + 1) % 4),
            d.tetra.cell_vertex c ((lv + 2 + 1) % 4)] : List Nat).Nodup := by
          have d01 := hdistc lv hlv4 ((lv + 0 + 1) % 4) (Nat.mod_lt _ (by omega)) (by omega)
          have d02 := hdistc lv hlv4 ((lv + 1 + 1) % 4) (Nat.mod_lt _ (by omega)) (by omega)
          have d03 := hdistc lv hlv4 ((lv + 2 + 1) % 4) (Nat.mod_lt _ (by omega)) (by omega)
          have d12 := hdistc ((lv + 0 + 1) % 4) (Nat.mod_lt _ (by omega)) ((lv + 1 + 1) % 4)
            (Nat.mod_lt _ (by omega)) (by omega)
          have d13 := hdistc ((lv + 0 + 1) % 4) (Nat.mod_lt _ (by omega)) ((lv + 2 + 1) % 4)
            (Nat.mod_lt _ (by omega)) (by omega)
          have d23 := hdistc ((lv + 1 + 1) % 4) (Nat.mod_lt _ (by omega)) ((lv + 2 + 1) % 4)
            (Nat.mod_lt _ (by omega)) (by omega)
          simp [List.nodup_cons, List.mem_cons, d01, d02, d03, d12, d13, d23]
        have hsubF : ([d.tetra.cell_vertex c lv,
            d.tetra.cell_vertex c ((lv + 0 + 1) % 4),
            d.tetra.cell_vertex c ((lv + 1 + 1) % 4),
            d.tetra.cell_vertex c ((lv + 2 + 1) % 4)] : List Nat).toFinset ⊆
            (d.facetVertices ⟨d.tetra.cell_adjacent c lv, k⟩).toFinset := by
          intro x hx
          rw [List.mem_toFinset] at hx ⊢
          rcases List.mem_cons.mp hx with rfl | hx
          · exact hbad
          rcases List.mem_cons.mp hx with rfl | hx
          · exact ha0
          rcases List.mem_cons.mp hx with rfl | hx
          · exact ha1
          rcases List.mem_cons.mp hx with rfl | hx
          · exact ha2
          cases hx
        have hcard : ([d.tetra.cell_vertex c lv,
            d.tetra.cell_vertex c ((lv + 0 + 1) % 4),
            d.tetra.cell_vertex c ((lv + 1 + 1) % 4),
            d.tetra.cell_vertex c ((lv + 2 + 1) % 4)] : List Nat).toFinset.card = 4 :=
          List.toFinset_card_of_nodup hnodup
        have hle := Finset.card_le_card hsubF
        have hle3 : (d.facetVertices ⟨d.tetra.cell_adjacent c lv, k⟩).toFinset.card ≤ 3 :=
          List.toFinset_card_le _
        omega
      -- crossing back lands on f's cell
      have hadj_back : d.tetra.cell_adjacent (d.tetra.cell_adjacent c lv) k = c :=
        hsymA k hk4 hVAk
      rw [hmf, mirrorFacet_unfold, hadj_back, if_pos hcellc,
        find4_unique (fun kk =>
            !((d.facetVertices ⟨d.tetra.cell_adjacent c lv, k⟩).contains
              (d.tetra.cell_vertex c kk)))
          hlv4 (bnot_contains_of_not_mem hopp)
          (fun j hj4 hjlv => bnot_contains_of_mem (hFsub j hj4 hjlv))]

/-- Witness for C1 at the two-tetrahedra complex: the mirror of facet
(cell 0, local vertex 0) is (cell 1, local vertex 0), and mirroring again
returns (cell 0, local vertex 0). -/
theorem mirrorFacet_involution_witness :
    (Facet.mk 0 0).localVertexIndex < 4 ∧
      (sampleDGC.mirrorFacet ⟨0, 0⟩).cellIndex ≠ NO_CELL ∧
      sampleDGC.mirrorFacet (sampleDGC.mirrorFacet ⟨0, 0⟩) = ⟨0, 0⟩ := by
  refine ⟨by decide, by decide, ?_⟩
  exact mirrorFacet_involution sampleDGC ⟨0, 0⟩ (by decide) (by decide)
    ⟨by decide, by decide⟩ (by decide) (by decide) (by decide) (by decide)

/-- `bumpCell` never changes the number of cells. -/
lemma bumpCell_length : ∀ (cells : List GC_cellInfo) (i : Nat) (dE dF : ℚ),
    (bumpCell cells i dE dF).length = cells.length
  | [], _, _, _ => rfl
  | _ :: _rest, 0, _, _ => rfl
  | _ :: rest, i + 1, dE, dF => congrArg Nat.succ (bumpCell_length rest i dE dF)

/-- `bumpCell` with nonnegative deltas only grows weights. -/
lemma bumpCell_le : ∀ (cells : List GC_cellInfo) (i : Nat) (dE dF : ℚ), 0 ≤ dE → 0 ≤ dF →
    ∀ j (hj : j < cells.length) (hj2 : j < (bumpCell cells i dE dF).length),
      (cells.get ⟨j, hj⟩).emptyWeight ≤ ((bumpCell cells i dE dF).get ⟨j, hj2⟩).emptyWeight ∧
      (cells.get ⟨j, hj⟩).fullWeight ≤ ((bumpCell cells i dE dF).get ⟨j, hj2⟩).fullWeight
  | [], _, _, _, _, _, j, hj, _ => absurd hj (by simp)
  | cInfo :: rest, 0, dE, dF, hE, hF, 0, _, _ =>
      ⟨le_add_of_nonneg_right hE, le_add_of_nonneg_right hF⟩
  | cInfo :: rest, 0, dE, dF, hE, hF, j + 1, _, _ => ⟨le_refl _, le_refl _⟩
  | cInfo :: rest, i + 1, dE, dF, hE, hF, 0, _, _ => ⟨le_refl _, le_refl _⟩
  | cInfo :: rest, i + 1, dE, dF, hE, hF, j + 1, hj, hj2 =>
      bumpCell_le rest i dE dF hE hF j (Nat.lt_of_succ_lt_succ hj)
        (Nat.lt_of_succ_lt_succ hj2)

/-- `weightsLE` is reflexive. -/
lemma weightsLE_refl (xs : List GC_cellInfo) : weightsLE xs xs :=
  ⟨rfl, fun _ _ _ => ⟨le_refl _, le_refl _⟩⟩

/-- `weightsLE` is transitive. -/
lemma weightsLE_trans {xs ys zs : List GC_cellInfo} (h1 : weightsLE xs ys)
    (h2 : weightsLE ys zs) : weightsLE xs zs := by
  refine ⟨h1.1.trans h2.1, ?_⟩
  intro j hj hj2
  have hjy : j < ys.length := h1.1 ▸ hj
  exact ⟨(h1.2 j hj hjy).1.trans (h2.2 j hjy hj2).1,
    (h1.2 j hj hjy).2.trans (h2.2 j hjy hj2).2⟩

/-- One vote with nonnegative deltas only grows weights. -/
lemma applyVote_weightsLE (st : VoteState) (v : Nat × ℚ × ℚ) (hE : 0 ≤ v.2.1)
    (hF : 0 ≤ v.2.2) : weightsLE st.cells (applyVote st v).cells :=
  ⟨(bumpCell_length st.cells v.1 v.2.1 v.2.2).symm, bumpCell_le st.cells v.1 v.2.1 v.2.2 hE hF⟩

/-- One voting pass with nonnegative deltas keeps vertices and only grows
weights. -/
lemma fillGraphPass_props : ∀ (votes : List (Nat × ℚ × ℚ)) (st : VoteState),
    (∀ v ∈ votes, 0 ≤ v.2.1 ∧ 0 ≤ v.2.2) →
    (fillGraphPass st votes).vertices = st.vertices ∧
      weightsLE st.cells (fillGraphPass st votes).cells
  | [], st, _ => ⟨rfl, weightsLE_refl _⟩
  | v :: votes, st, h => by
      have hv := h v (List.mem_cons_self _ _)
      have ih := fillGraphPass_props votes (applyVote st v)
        (fun w hw => h w (List.mem_cons_of_mem _ hw))
      have hstep : fillGraphPass st (v :: votes) = fillGraphPass (applyVote st v) votes := rfl
      rw [hstep]
      exact ⟨ih.1, weightsLE_trans (applyVote_weightsLE st v hv.1 hv.2) ih.2⟩

/-- Any sequence of nonnegative voting passes keeps vertices and only grows
weights. -/
lemma runVotingPasses_props : ∀ (passes : List (List (Nat × ℚ × ℚ))) (st : VoteState),
    nonnegPasses passes →
    (runVotingPasses st passes).vertices = st.vertices ∧
      weightsLE st.cells (runVotingPasses st passes).cells
  | [], st, _ => ⟨rfl, weightsLE_refl _⟩
  | p :: passes, st, h => by
      have hp := fillGraphPass_props p st (h p (List.mem_cons_self _ _))
      have ih := runVotingPasses_props passes (fillGraphPass st p)
        (fun q hq => h q (List.mem_cons_of_mem _ hq))
      have hstep : runVotingPasses st (p :: passes) =
          runVotingPasses (fillGraphPass st p) passes := rfl
      rw [hstep]
      exact ⟨ih.1.trans hp.1, weightsLE_trans hp.2 ih.2⟩

/-- C6: voting only adds.  After any number of voting passes whose vote
deltas are nonnegative, the vertex data is untouched, no cell is removed
(cell count preserved inside `weightsLE`), every cell's accumulated
empty/full weight is at least its value before the passes, and weights that
start nonnegative stay nonnegative. -/
theorem votingPasses_monotone (st : VoteState) (passes : List (List (Nat × ℚ × ℚ)))
    (hnn : nonnegPasses passes) :
    (runVotingPasses st passes).vertices = st.vertices ∧
      weightsLE st.cells (runVotingPasses st passes).cells ∧
      ((∀ j (hj : j < st.cells.length),
          0 ≤ (st.cells.get ⟨j, hj⟩).emptyWeight ∧ 0 ≤ (st.cells.get ⟨j, hj⟩).fullWeight) →
        ∀ j (hj2 : j < (runVotingPasses st passes).cells.length),
          0 ≤ ((runVotingPasses st passes).cells.get ⟨j, hj2⟩).emptyWeight ∧
          0 ≤ ((runVotingPasses st passes).cells.get ⟨j, hj2⟩).fullWeight) := by
  obtain ⟨hv, hw⟩ := runVotingPasses_props passes st hnn
  refine ⟨hv, hw, ?_⟩
  intro h0 j hj2
  have hj : j < st.cells.length := hw.1 ▸ hj2
  exact ⟨(h0 j hj).1.trans (hw.2 j hj hj2).1, (h0 j hj).2.trans (hw.2 j hj hj2).2⟩

/-- Witness for C6: two passes of two votes each on a one-vertex,
two-cell state. -/
theorem votingPasses_monotone_witness :
    nonnegPasses [[(0, 1, 2), (1, 0, 3)], [(0, 5, 0)]] ∧
      (runVotingPasses
          { vertices := [(0, 0, 0)],
            cells := [{ emptyWeight := 0, fullWeight := 0 },
              { emptyWeight := 1, fullWeight := 1 }] }
          [[(0, 1, 2), (1, 0, 3)], [(0, 5, 0)]]).vertices = [(0, 0, 0)] ∧
      weightsLE [{ emptyWeight := 0, fullWeight := 0 }, { emptyWeight := 1, fullWeight := 1 }]
        (runVotingPasses
          { vertices := [(0, 0, 0)],
            cells := [{ emptyWeight := 0, fullWeight := 0 },
              { emptyWeight := 1, fullWeight := 1 }] }
          [[(0, 1, 2), (1, 0, 3)], [(0, 5, 0)]]).cells := by
  have hnn : nonnegPasses [[(0, 1, 2), (1, 0, 3)], [(0, 5, 0)]] := by
    intro p hp v hv
    fin_cases hp <;> fin_cases hv <;> constructor <;> norm_num
  have h := votingPasses_monotone
    { vertices := [(0, 0, 0)],
      cells := [{ emptyWeight := 0, fullWeight := 0 },
        { emptyWeight := 1, fullWeight := 1 }] }
    [[(0, 1, 2), (1, 0, 3)], [(0, 5, 0)]] hnn
  exact ⟨hnn, h.1, h.2.1⟩

/-- C7: after the min-cut step, every cell of the triangulation has a
defined boolean full/empty label (`_cellIsFull` has exactly one entry per
cell), every infinite cell is labeled empty (`false`), and every finite
cell carries the side of the cut it fell on. -/
theorem maxflow_labels (d : DelaunayGraphCut) (cutIsFull : Nat → Bool) :
    (maxflow d cutIsFull).length = d.tetra.nb_cells ∧
    ∀ ci (h : ci < (maxflow d cutIsFull).length),
      (d.tetra.cell_is_infinite ci = true → (maxflow d cutIsFull).get ⟨ci, h⟩ = false) ∧
      (d.tetra.cell_is_infinite ci = false →
        (maxflow d cutIsFull).get ⟨ci, h⟩ = cutIsFull ci) := by
  refine ⟨by simp [maxflow], ?_⟩
  intro ci h
  have hget : (maxflow d cutIsFull).get ⟨ci, h⟩ =
      if d.tetra.cell_is_infinite ci then false else cutIsFull ci := by
    simp [maxflow]
  constructor
  · intro hinf
    rw [hget, if_pos hinf]
  · intro hfin
    rw [hget, if_neg (by simp [hfin])]

/-- Witness for C7: on the backend whose cell 1 is infinite, a cut putting
everything on the full side still labels cell 1 empty and cell 0 full. -/
theorem maxflow_labels_witness :
    (maxflow (initialDelaunayGraphCut sampleTetraInf 5) (fun _ => true)).length = 2 ∧
    ∃ h1 : 1 < (maxflow (initialDelaunayGraphCut sampleTetraInf 5) (fun _ => true)).length,
      (maxflow (initialDelaunayGraphCut sampleTetraInf 5) (fun _ => true)).get ⟨1, h1⟩ =
        false := by
  have h := maxflow_labels (initialDelaunayGraphCut sampleTetraInf 5) (fun _ => true)
  have h1 : 1 < (maxflow (initialDelaunayGraphCut sampleTetraInf 5) (fun _ => true)).length := by
    rw [h.1]
    decide
  exact ⟨by rw [h.1]; rfl, h1, (h.2 1 h1).1 (by decide)⟩

/-- An emitted triangle determines the emission condition and its vertex
triple. -/
lemma emitTriangle_some {d : DelaunayGraphCut} {labels isHelper : Nat → Bool}
    {fh : Bool} {f : Facet} {tri : Nat × Nat × Nat}
    (h : emitTriangle d labels isHelper fh f = some tri) :
    (labels f.cellIndex = true ∧ (d.mirrorFacet f).cellIndex ≠ NO_CELL ∧
      labels (d.mirrorFacet f).cellIndex = false ∧
      d.isInfiniteCell f.cellIndex = false ∧
      d.isInfiniteCell (d.mirrorFacet f).cellIndex = false ∧
      (fh = true → facetHelperFree d isHelper f = true)) ∧
    tri = (d.getVertexIndex f 0, d.getVertexIndex f 1, d.getVertexIndex f 2) := by
  unfold emitTriangle at h
  split at h
  · exact ⟨by assumption, (Option.some.inj h).symm⟩
  · cases h

/-- C8: a triangle is emitted for a facet iff the facet's two incident
cells have different labels (the facet's own cell full, its mirror empty),
the mirror exists, neither incident cell is infinite, and — when
`filterHelperPointsTriangles` is set — the facet references no helper
vertex; consequently with the filter set no triangle of the produced mesh
references a helper vertex. -/
theorem createMesh_spec (d : DelaunayGraphCut) (labels isHelper : Nat → Bool) (fh : Bool) :
    (∀ f : Facet,
      (∃ tri, emitTriangle d labels isHelper fh f = some tri) ↔
        (labels f.cellIndex ≠ labels (d.mirrorFacet f).cellIndex ∧
          labels f.cellIndex = true ∧
          (d.mirrorFacet f).cellIndex ≠ NO_CELL ∧
          d.isInfiniteCell f.cellIndex = false ∧
          d.isInfiniteCell (d.mirrorFacet f).cellIndex = false ∧
          (fh = true → facetHelperFree d isHelper f = true))) ∧
    (fh = true → ∀ tri ∈ createMesh d labels isHelper fh,
      isHelper tri.1 = false ∧ isHelper tri.2.1 = false ∧ isHelper tri.2.2 = false) := by
  constructor
  · intro f
    constructor
    · rintro ⟨tri, htri⟩
      obtain ⟨⟨hA, hB, hC, hD, hE, hF⟩, -⟩ := emitTriangle_some htri
      refine ⟨?_, hA, hB, hD, hE, hF⟩
      rw [hA, hC]
      decide
    · rintro ⟨hne, hA, hB, hD, hE, hF⟩
      have hC : labels (d.mirrorFacet f).cellIndex = false := by
        rcases hb : labels (d.mirrorFacet f).cellIndex with _ | _
        · rfl
        · exact absurd (hA.trans hb.symm) hne
      refine ⟨(d.getVertexIndex f 0, d.getVertexIndex f 1, d.getVertexIndex f 2), ?_⟩
      unfold emitTriangle
      rw [if_pos ⟨hA, hB, hC, hD, hE, hF⟩]
  · intro hfh tri htri
    rw [createMesh] at htri
    rcases List.mem_flatten.mp htri with ⟨l, hl, htl⟩
    rcases List.mem_map.mp hl with ⟨ci, hci, rfl⟩
    rcases List.mem_filterMap.mp htl with ⟨lvi, hlvi, hemit⟩
    obtain ⟨⟨-, -, -, -, -, hF⟩, htrieq⟩ := emitTriangle_some hemit
    have hfree := hF hfh
    subst htrieq
    simp only [facetHelperFree, Bool.and_eq_true, Bool.not_eq_true'] at hfree
    exact ⟨hfree.1.1, hfree.1.2, hfree.2⟩

/-- Witness for C8 at the two-tetrahedra complex: cell 0 full, cell 1
empty, vertex 4 a helper; the shared facet (cell 0, local vertex 0) emits,
and no emitted triangle references vertex 4. -/
theorem createMesh_spec_witness :
    (∃ tri, emitTriangle sampleDGC (fun ci => ci == 0) (fun vi => vi == 4) true ⟨0, 0⟩ =
      some tri) ∧
    (∀ tri ∈ createMesh sampleDGC (fun ci => ci == 0) (fun vi => vi == 4) true,
      (fun vi : Nat => vi == 4) tri.1 = false ∧ (fun vi : Nat => vi == 4) tri.2.1 = false ∧
        (fun vi : Nat => vi == 4) tri.2.2 = false) :=
  ⟨((createMesh_spec sampleDGC (fun ci => ci == 0) (fun vi => vi == 4) true).1 ⟨0, 0⟩).mpr
      ⟨by decide, by decide, by decide, by decide, by decide, by decide⟩,
    (createMesh_spec sampleDGC (fun ci => ci == 0) (fun vi => vi == 4) true).2 rfl⟩

/-- Membership after one flood-fill expansion step. -/
lemma mem_dustExpand {t : Tetrahedralization} {labels : Nat → Bool} {S : Finset Nat}
    {b : Nat} :
    b ∈ dustExpand t labels S ↔
      b ∈ S ∨ (b < t.nb_cells ∧ labels b = true ∧ ∃ a ∈ S, cellsAdjacent t a b = true) := by
  simp [dustExpand, Finset.mem_union, Finset.mem_filter, Finset.mem_range]

/-- The expansion step only grows the set. -/
lemma subset_dustExpand {t : Tetrahedralization} {labels : Nat → Bool} (S : Finset Nat) :
    S ⊆ dustExpand t labels S :=
  Finset.subset_union_left

/-- The expansion step is monotone in the set. -/
lemma dustExpand_mono {t : Tetrahedralization} {labels : Nat → Bool} {S T : Finset Nat}
    (h : S ⊆ T) : dustExpand t labels S ⊆ dustExpand t labels T := by
  intro b hb
  rcases mem_dustExpand.mp hb with hbS | ⟨hbn, hbl, a, haS, hadj⟩
  · exact mem_dustExpand.mpr (Or.inl (h hbS))
  · exact mem_dustExpand.mpr (Or.inr ⟨hbn, hbl, a, h haS, hadj⟩)

/-- The expansion step is monotone in the labeling. -/
lemma dustExpand_labels_mono {t : Tetrahedralization} {labels labels2 : Nat → Bool}
    {S : Finset Nat} (h : ∀ x, labels x = true → labels2 x = true) :
    dustExpand t labels S ⊆ dustExpand t labels2 S := by
  intro b hb
  rcases mem_dustExpand.mp hb with hbS | ⟨hbn, hbl, a, haS, hadj⟩
  · exact mem_dustExpand.mpr (Or.inl hbS)
  · exact mem_dustExpand.mpr (Or.inr ⟨hbn, h b hbl, a, haS, hadj⟩)

/-- Iterated expansion is monotone in the set. -/
lemma iterate_dustExpand_mono {t : Tetrahedralization} {labels : Nat → Bool} :
    ∀ (n : Nat) {S T : Finset Nat}, S ⊆ T →
      (dustExpand t labels)^[n] S ⊆ (dustExpand t labels)^[n] T
  | 0, _, _, h => h
  | n + 1, S, T, h => by
    rw [Function.iterate_succ_apply, Function.iterate_succ_apply]
    exact iterate_dustExpand_mono n (dustExpand_mono h)

/-- The set only grows along the iteration. -/
lemma subset_iterate_dustExpand {t : Tetrahedralization} {labels : Nat → Bool} :
    ∀ (n : Nat) (S : Finset Nat), S ⊆ (dustExpand t labels)^[n] S
  | 0, _ => fun _ hx => hx
  | n + 1, S => by
    rw [Function.iterate_succ_apply']
    exact (subset_iterate_dustExpand n S).trans (subset_dustExpand _)

/-- Iterated expansion is monotone in the labeling. -/
lemma iterate_dustExpand_labels_mono {t : Tetrahedralization} {labels labels2 : Nat → Bool}
    (h : ∀ x, labels x = true → labels2 x = true) :
    ∀ (n : Nat) (S : Finset Nat),
      (dustExpand t labels)^[n] S ⊆ (dustExpand t labels2)^[n] S
  | 0, _ => fun _ hx => hx
  | n + 1, S => by
    rw [Function.iterate_succ_apply', Function.iterate_succ_apply']
    exact (dustExpand_labels_mono h).trans
      (dustExpand_mono (iterate_dustExpand_labels_mono h n S))

/-- Starting below `nb_cells`, the iteration stays inside `range nb_cells`. -/
lemma iterate_dustExpand_subset_range {t : Tetrahedralization} {labels : Nat → Bool}
    {a : Nat} (ha : a < t.nb_cells) :
    ∀ n, (dustExpand t labels)^[n] {a} ⊆ Finset.range t.nb_cells
  | 0 => by
    intro x hx
    rw [Finset.mem_singleton.mp hx]
    exact Finset.mem_range.mpr ha
  | n + 1 => by
    rw [Function.iterate_succ_apply']
    intro b hb
    rcases mem_dustExpand.mp hb with hbX | ⟨hbn, -, -⟩
    · exact iterate_dustExpand_subset_range ha n hbX
    · exact Finset.mem_range.mpr hbn

/-- While no fixed point has been reached, the iteration grows by at least
one element per step. -/
lemma iterate_dustExpand_card_growth {t : Tetrahedralization} {labels : Nat → Bool}
    {a : Nat} :
    ∀ n, (∀ m, m < n →
        (dustExpand t labels)^[m + 1] {a} ≠ (dustExpand t labels)^[m] {a}) →
      n + 1 ≤ ((dustExpand t labels)^[n] {a}).card
  | 0, _ => by simp
  | n + 1, h => by
    have ihc := iterate_dustExpand_card_growth n (fun m hm => h m (by omega))
    have hsub : (dustExpand t labels)^[n] {a} ⊆ (dustExpand t labels)^[n + 1] {a} := by
      rw [Function.iterate_succ_apply']
      exact subset_dustExpand _
    have hne : (dustExpand t labels)^[n] {a} ≠ (dustExpand t labels)^[n + 1] {a} :=
      fun heq => h n (by omega) heq.symm
    have hlt := Finset.card_lt_card (ssubset_of_subset_of_ne hsub hne)
    omega

/-- A fixed point of the expansion propagates to all later iterates. -/
lemma dustExpand_fix_propagates {t : Tetrahedralization} {labels : Nat → Bool}
    {S : Finset Nat} {m : Nat}
    (h : (dustExpand t labels)^[m + 1] S = (dustExpand t labels)^[m] S) :
    ∀ j, m ≤ j → (dustExpand t labels)^[j] S = (dustExpand t labels)^[m] S := by
  intro j hj
  induction j, hj using Nat.le_induction with
  | base => rfl
  | succ j hj ih =>
    rw [Function.iterate_succ_apply', ih]
    exact (Function.iterate_succ_apply' (dustExpand t labels) m S).symm.trans h

/-- Saturation: one more expansion after `nb_cells` of them changes
nothing (for a seed that is a real cell). -/
lemma iterate_dustExpand_saturates {t : Tetrahedralization} {labels : Nat → Bool}
    {a : Nat} (ha : a < t.nb_cells) :
    (dustExpand t labels)^[t.nb_cells + 1] {a} = (dustExpand t labels)^[t.nb_cells] {a} := by
  by_contra hne
  have hall : ∀ m, m < t.nb_cells + 1 →
      (dustExpand t labels)^[m + 1] {a} ≠ (dustExpand t labels)^[m] {a} := by
    intro m hm heq
    exact hne ((dustExpand_fix_propagates heq (t.nb_cells + 1) (by omega)).trans
      (dustExpand_fix_propagates heq t.nb_cells (by omega)).symm)
  have hg := iterate_dustExpand_card_growth (t.nb_cells + 1) hall
  have hcb : ((dustExpand t labels)^[t.nb_cells + 1] {a}).card ≤ t.nb_cells := by
    have h2 := Finset.card_le_card
      (@iterate_dustExpand_subset_range t labels a ha (t.nb_cells + 1))
    simpa using h2
  omega

/-- The component of a real cell is a fixed point of the expansion. -/
lemma dustComponent_fixed {t : Tetrahedralization} {labels : Nat → Bool} {a : Nat}
    (ha : a < t.nb_cells) :
    dustExpand t labels (dustComponent t labels a) = dustComponent t labels a := by
  rw [dustComponent]
  exact (Function.iterate_succ_apply' (dustExpand t labels) t.nb_cells {a}).symm.trans
    (iterate_dustExpand_saturates ha)

/-- Every iterate from a real seed stays inside the component. -/
lemma iterate_subset_dustComponent {t : Tetrahedralization} {labels : Nat → Bool}
    {a : Nat} (ha : a < t.nb_cells) :
    ∀ n, (dustExpand t labels)^[n] {a} ⊆ dustComponent t labels a
  | 0 => subset_iterate_dustExpand t.nb_cells {a}
  | n + 1 => by
    rw [Function.iterate_succ_apply']
    intro x hx
    exact (dustComponent_fixed ha) ▸
      (dustExpand_mono (iterate_subset_dustComponent ha n) hx)

/-- The seed belongs to its own component. -/
lemma mem_dustComponent_self {t : Tetrahedralization} {labels : Nat → Bool} (a : Nat) :
    a ∈ dustComponent t labels a :=
  subset_iterate_dustExpand t.nb_cells {a} (Finset.mem_singleton_self a)

/-- Everything the flood fill reaches is the seed or a labeled real cell. -/
lemma mem_iterate_dustExpand_cases {t : Tetrahedralization} {labels : Nat → Bool}
    {a : Nat} :
    ∀ n, ∀ x ∈ (dustExpand t labels)^[n] {a},
      x = a ∨ (x < t.nb_cells ∧ labels x = true)
  | 0, x, hx => Or.inl (Finset.mem_singleton.mp hx)
  | n + 1, x, hx => by
    rw [Function.iterate_succ_apply'] at hx
    rcases mem_dustExpand.mp hx with hxX | ⟨hxn, hxl, -⟩
    · exact mem_iterate_dustExpand_cases n x hxX
    · exact Or.inr ⟨hxn, hxl⟩

/-- A component member's component is contained in the component. -/
lemma dustComponent_subset_of_mem {t : Tetrahedralization} {labels : Nat → Bool}
    {a b : Nat} (ha : a < t.nb_cells) (hb : b ∈ dustComponent t labels a) :
    dustComponent t labels b ⊆ dustComponent t labels a := by
  have hstep : ∀ n, (dustExpand t labels)^[n] {b} ⊆ dustComponent t labels a := by
    intro n
    induction n with
    | zero =>
      intro x hx
      rw [Finset.mem_singleton.mp hx]
      exact hb
    | succ n ih =>
      rw [Function.iterate_succ_apply']
      intro x hx
      exact (dustComponent_fixed ha) ▸ (dustExpand_mono ih hx)
  exact hstep t.nb_cells

/-- Reachability is symmetric when the backend adjacency is: a labeled real
seed belongs to the component of everything its component reaches. -/
lemma mem_dustComponent_symm {t : Tetrahedralization} {labels : Nat → Bool}
    (hsym : ∀ a, a < t.nb_cells → ∀ b, b < t.nb_cells →
      cellsAdjacent t a b = cellsAdjacent t b a)
    {a : Nat} (ha : a < t.nb_cells) (hla : labels a = true) :
    ∀ n, ∀ b ∈ (dustExpand t labels)^[n] {a}, a ∈ dustComponent t labels b
  | 0, b, hb => by
    rw [Finset.mem_singleton.mp hb]
    exact mem_dustComponent_self a
  | n + 1, b, hb => by
    rw [Function.iterate_succ_apply'] at hb
    rcases mem_dustExpand.mp hb with hbX | ⟨hbn, hbl, a2, ha2, hadj⟩
    · exact mem_dustComponent_symm hsym ha hla n b hbX
    · have ha2props : a2 < t.nb_cells ∧ labels a2 = true := by
        rcases mem_iterate_dustExpand_cases n a2 ha2 with rfl | hp
        · exact ⟨ha, hla⟩
        · exact hp
      have hradj : cellsAdjacent t b a2 = true := by
        rw [← hsym a2 ha2props.1 b hbn]
        exact hadj
      have ha2exp : a2 ∈ dustExpand t labels {b} :=
        mem_dustExpand.mpr (Or.inr ⟨ha2props.1, ha2props.2, b,
          Finset.mem_singleton_self b, hradj⟩)
      have hsub : dustComponent t labels a2 ⊆ dustComponent t labels b := by
        have h1 : (dustExpand t labels)^[t.nb_cells] {a2} ⊆
            (dustExpand t labels)^[t.nb_cells] (dustExpand t labels {b}) :=
          iterate_dustExpand_mono t.nb_cells (Finset.singleton_subset_iff.mpr ha2exp)
        have h2 : (dustExpand t labels)^[t.nb_cells] (dustExpand t labels {b}) =
            dustComponent t labels b := by
          rw [← Function.iterate_succ_apply]
          exact iterate_dustExpand_saturates hbn
        exact h2 ▸ h1
      exact hsub (mem_dustComponent_symm hsym ha hla n a2 ha2)

/-- C9: `removeDust` is idempotent.  On a cell complex whose backend
adjacency is symmetric, applying `removeDust` twice with the same threshold
yields the same labeling on every cell as applying it once. -/
theorem removeDust_idempotent (t : Tetrahedralization)
    (hsym : ∀ a, a < t.nb_cells → ∀ b, b < t.nb_cells →
      cellsAdjacent t a b = cellsAdjacent t b a)
    (k : Nat) (labels : Nat → Bool) :
    ∀ ci, ci < t.nb_cells →
      removeDust t k (removeDust t k labels) ci = removeDust t k labels ci := by
  intro ci hci
  by_cases hfull : removeDust t k labels ci = true
  · have hparts : labels ci = true ∧ k ≤ (dustComponent t labels ci).card := by
      have hx := hfull
      simp only [removeDust, Bool.and_eq_true, decide_eq_true_eq] at hx
      exact hx
    have hll : ∀ x, removeDust t k labels x = true → labels x = true := by
      intro x hx
      simp only [removeDust, Bool.and_eq_true] at hx
      exact hx.1
    -- every cell of the kept component survives the first pass
    have hkeep : ∀ x ∈ dustComponent t labels ci, removeDust t k labels x = true := by
      intro x hx
      rcases mem_iterate_dustExpand_cases t.nb_cells x hx with rfl | ⟨hxn, hxl⟩
      · exact hfull
      · have h1 : dustComponent t labels x ⊆ dustComponent t labels ci :=
          dustComponent_subset_of_mem hci hx
        have h2 : dustComponent t labels ci ⊆ dustComponent t labels x :=
          dustComponent_subset_of_mem hxn
            (mem_dustComponent_symm hsym hci hparts.1 t.nb_cells x hx)
        have hcompeq : dustComponent t labels x = dustComponent t labels ci :=
          Finset.Subset.antisymm h1 h2
        simp only [removeDust, Bool.and_eq_true, decide_eq_true_eq]
        exact ⟨hxl, hcompeq.symm ▸ hparts.2⟩
    -- hence the component is unchanged by the first pass
    have hcompeq2 : dustComponent t (removeDust t k labels) ci =
        dustComponent t labels ci := by
      apply Finset.Subset.antisymm
      · exact iterate_dustExpand_labels_mono hll t.nb_cells {ci}
      · have hsub : ∀ n, (dustExpand t labels)^[n] {ci} ⊆
            dustComponent t (removeDust t k labels) ci := by
          intro n
          induction n with
          | zero =>
            intro x hx
            rw [Finset.mem_singleton.mp hx]
            exact mem_dustComponent_self ci
          | succ n ih =>
            rw [Function.iterate_succ_apply']
            intro b hb
            rcases mem_dustExpand.mp hb with hbX | ⟨hbn, hbl, a2, ha2, hadj⟩
            · exact ih hbX
            · have hbmem : b ∈ dustComponent t labels ci := by
                have hb2 : b ∈ (dustExpand t labels)^[n + 1] {ci} := by
                  rw [Function.iterate_succ_apply']
                  exact hb
                exact iterate_subset_dustComponent hci (n + 1) hb2
              have hstep : b ∈ dustExpand t (removeDust t k labels)
                  (dustComponent t (removeDust t k labels) ci) :=
                mem_dustExpand.mpr (Or.inr ⟨hbn, hkeep b hbmem, a2, ih ha2, hadj⟩)
              exact (@dustComponent_fixed t (removeDust t k labels) ci hci) ▸ hstep
        exact hsub t.nb_cells
    show (removeDust t k labels ci &&
        decide (k ≤ (dustComponent t (removeDust t k labels) ci).card)) =
      removeDust t k labels ci
    rw [hfull, hcompeq2, decide_eq_true hparts.2]
    rfl
  · have hfalse : removeDust t k labels ci = false := Bool.eq_false_iff.mpr hfull
    show (removeDust t k labels ci &&
        decide (k ≤ (dustComponent t (removeDust t k labels) ci).card)) =
      removeDust t k labels ci
    rw [hfalse]
    rfl

/-- Witness for C9 at the two-tetrahedra complex with cell 0 labeled full
and threshold 3: its adjacency is symmetric, and the second `removeDust`
pass changes nothing. -/
theorem removeDust_idempotent_witness :
    (∀ a, a < sampleTetra.nb_cells → ∀ b, b < sampleTetra.nb_cells →
      cellsAdjacent sampleTetra a b = cellsAdjacent sampleTetra b a) ∧
    ∀ ci, ci < sampleTetra.nb_cells →
      removeDust sampleTetra 3 (removeDust sampleTetra 3 (fun c => c == 0)) ci =
        removeDust sampleTetra 3 (fun c => c == 0) ci := by
  have hsym : ∀ a, a < sampleTetra.nb_cells → ∀ b, b < sampleTetra.nb_cells →
      cellsAdjacent sampleTetra a b = cellsAdjacent sampleTetra b a := by decide
  exact ⟨hsym, removeDust_idempotent sampleTetra hsym 3 (fun c => c == 0)⟩

end AliceVision
